import Mathlib

/-!
Verification of `src/text_sum_pydanticai.py`.

The tokenizer (`nltk.sent_tokenize` / `word_tokenize`) is an external
collaborator, so the embedding works at the token level: a sentence is
represented by its word-token list, the input text by its sentence list,
and a chunk by the list of sentences it accumulates.  Joining sentences
with `" ".join` and re-tokenizing corresponds to concatenating the word
lists; the empty chunk `[]` corresponds to the string `"" = " ".join([])`.
-/

/-- A sentence, represented by its word-token list (`word_tokenize(sentence)`). -/
abbrev Sentence := List String

/-- Word count of a chunk: total number of word tokens over its sentences. -/
def wordCount (c : List Sentence) : Nat := (c.map List.length).sum

/-- One iteration of the `for sentence in sentences` loop of `chunk_text`:
state is `(chunks, current_chunk, current_length)`. -/
def chunkStep (max_words : Nat) (st : List (List Sentence) × List Sentence × Nat)
    (sentence : Sentence) : List (List Sentence) × List Sentence × Nat :=
  let (chunks, current_chunk, current_length) := st
  if current_length + sentence.length ≤ max_words then
    (chunks, current_chunk ++ [sentence], current_length + sentence.length)
  else
    (chunks ++ [current_chunk], [sentence], sentence.length)

/-- The final `if current_chunk: chunks.append(...)` of `chunk_text`. -/
def finishChunks (st : List (List Sentence) × List Sentence × Nat) :
    List (List Sentence) :=
  if st.2.1 = [] then st.1 else st.1 ++ [st.2.1]

/-- Source `chunk_text(text, max_words)`, over the tokenized text. -/
def chunk_text (sentences : List Sentence) (max_words : Nat) :
    List (List Sentence) :=
  finishChunks (sentences.foldl (chunkStep max_words) ([], [], 0))

/-- A chunk is acceptable when it respects the word bound or is a single
oversized sentence. -/
def ChunkOk (max_words : Nat) (c : List Sentence) : Prop :=
  wordCount c ≤ max_words ∨ ∃ s, c = [s] ∧ max_words < s.length

theorem wordCount_nil : wordCount ([] : List Sentence) = 0 := rfl

theorem wordCount_append (a b : List Sentence) :
    wordCount (a ++ b) = wordCount a + wordCount b := by
  simp [wordCount]

theorem wordCount_singleton (s : Sentence) : wordCount [s] = s.length := by
  simp [wordCount]

/-- Invariant of the chunking loop: the running length tracks the current
chunk's word count, no sentence is lost or reordered, and every produced
chunk (and the accumulator) is acceptable. -/
theorem chunk_foldl_inv (max_words : Nat) (sentences : List Sentence) :
    ∀ (chunks0 : List (List Sentence)) (cur0 : List Sentence),
      (∀ c ∈ chunks0, ChunkOk max_words c) → ChunkOk max_words cur0 →
      (sentences.foldl (chunkStep max_words) (chunks0, cur0, wordCount cur0)).1.flatten
          ++ (sentences.foldl (chunkStep max_words) (chunks0, cur0, wordCount cur0)).2.1
        = chunks0.flatten ++ cur0 ++ sentences
      ∧ (∀ c ∈ (sentences.foldl (chunkStep max_words) (chunks0, cur0, wordCount cur0)).1,
          ChunkOk max_words c)
      ∧ ChunkOk max_words
          (sentences.foldl (chunkStep max_words) (chunks0, cur0, wordCount cur0)).2.1 := by
  induction sentences with
  | nil =>
    intro chunks0 cur0 h1 h2
    simp only [List.foldl_nil]
    exact ⟨by simp, h1, h2⟩
  | cons s rest ih =>
    intro chunks0 cur0 h1 h2
    simp only [List.foldl_cons, chunkStep]
    by_cases hle : wordCount cur0 + s.length ≤ max_words
    · rw [if_pos hle]
      have hwc : wordCount cur0 + s.length = wordCount (cur0 ++ [s]) := by
        simp [wordCount_append, wordCount_singleton]
      rw [hwc]
      have h2' : ChunkOk max_words (cur0 ++ [s]) := Or.inl (hwc ▸ hle)
      obtain ⟨he, hc, hcur⟩ := ih chunks0 (cur0 ++ [s]) h1 h2'
      refine ⟨?_, hc, hcur⟩
      rw [he]
      simp
    · rw [if_neg hle]
      have hwc : s.length = wordCount [s] := (wordCount_singleton s).symm
      rw [hwc]
      have h1' : ∀ c ∈ chunks0 ++ [cur0], ChunkOk max_words c := by
        intro c hc
        rcases List.mem_append.mp hc with h | h
        · exact h1 c h
        · simp only [List.mem_singleton] at h
          exact h ▸ h2
      have h2' : ChunkOk max_words [s] := by
        by_cases hs : s.length ≤ max_words
        · exact Or.inl (by simpa [wordCount_singleton] using hs)
        · exact Or.inr ⟨s, rfl, Nat.lt_of_not_le hs⟩
      obtain ⟨he, hc, hcur⟩ := ih (chunks0 ++ [cur0]) [s] h1' h2'
      refine ⟨?_, hc, hcur⟩
      rw [he]
      simp

/-- Sentence-level losslessness of `chunk_text`: concatenating the chunks
recovers the sentence list. -/
theorem chunk_text_flatten_eq (sentences : List Sentence) (max_words : Nat) :
    (chunk_text sentences max_words).flatten = sentences := by
  have h := chunk_foldl_inv max_words sentences [] []
    (by intro c hc; cases hc) (Or.inl (by simp [wordCount_nil]))
  rw [wordCount_nil] at h
  obtain ⟨he, -, -⟩ := h
  unfold chunk_text finishChunks
  by_cases hcur :
      (sentences.foldl (chunkStep max_words) ([], [], 0)).2.1 = []
  · rw [if_pos hcur]
    rw [hcur] at he
    simpa using he
  · rw [if_neg hcur]
    simpa using he

/-- Every chunk produced by `chunk_text` is acceptable: within the bound or a
single oversized sentence. -/
theorem chunk_text_ok (sentences : List Sentence) (max_words : Nat) :
    ∀ c ∈ chunk_text sentences max_words, ChunkOk max_words c := by
  have h := chunk_foldl_inv max_words sentences [] []
    (by intro c hc; cases hc) (Or.inl (by simp [wordCount_nil]))
  rw [wordCount_nil] at h
  obtain ⟨-, hc, hcur⟩ := h
  intro c hmem
  unfold chunk_text finishChunks at hmem
  by_cases hcase :
      (sentences.foldl (chunkStep max_words) ([], [], 0)).2.1 = []
  · rw [if_pos hcase] at hmem
    exact hc c hmem
  · rw [if_neg hcase] at hmem
    rcases List.mem_append.mp hmem with h | h
    · exact hc c h
    · simp only [List.mem_singleton] at h
      exact h ▸ hcur

/-- The chunk list computed by the loop only ever grows by appending. -/
theorem chunk_foldl_chunks_extend (max_words : Nat) (sentences : List Sentence) :
    ∀ (chunks0 : List (List Sentence)) (cur0 : List Sentence) (len0 : Nat),
      ∃ t, (sentences.foldl (chunkStep max_words) (chunks0, cur0, len0)).1
        = chunks0 ++ t := by
  induction sentences with
  | nil => intro chunks0 cur0 len0; exact ⟨[], by simp⟩
  | cons s rest ih =>
    intro chunks0 cur0 len0
    simp only [List.foldl_cons, chunkStep]
    by_cases hle : len0 + s.length ≤ max_words
    · rw [if_pos hle]
      exact ih chunks0 (cur0 ++ [s]) (len0 + s.length)
    · rw [if_neg hle]
      obtain ⟨t, ht⟩ := ih (chunks0 ++ [cur0]) [s] s.length
      exact ⟨[cur0] ++ t, by rw [ht]; simp⟩

theorem flatten_map_flatten (l : List (List (List α))) :
    (l.map List.flatten).flatten = l.flatten.flatten := by
  induction l with
  | nil => rfl
  | cons x xs ih => simp [ih]

/-- C1: for every input text and every max_words, concatenating in order the
words of every chunk returned by `chunk_text` reproduces exactly the word
sequence of the original text: chunking loses no words, adds none, and
preserves their order. -/
theorem chunk_text_lossless (sentences : List Sentence) (max_words : Nat) :
    ((chunk_text sentences max_words).map List.flatten).flatten
      = sentences.flatten := by
  rw [flatten_map_flatten, chunk_text_flatten_eq]

/-- C2: every chunk returned by `chunk_text` that is not a single-sentence
chunk exceeding the bound has word count at most `max_words` (this holds for
all chunks, the last one included). -/
theorem chunk_text_word_bound (sentences : List Sentence) (max_words : Nat)
    (c : List Sentence) (hc : c ∈ chunk_text sentences max_words)
    (hnot : ¬ (c.length = 1 ∧ max_words < wordCount c)) :
    wordCount c ≤ max_words := by
  rcases chunk_text_ok sentences max_words c hc with h | ⟨s, rfl, hs⟩
  · exact h
  · exact absurd ⟨rfl, by simpa [wordCount_singleton] using hs⟩ hnot

/-- Witness for C2 at a concrete input. -/
theorem chunk_text_word_bound_witness :
    ([["a"], ["b"]] ∈ chunk_text [["a"], ["b"], ["c"]] 2
        ∧ ¬ (([["a"], ["b"]] : List Sentence).length = 1
              ∧ 2 < wordCount [["a"], ["b"]]))
      ∧ wordCount [["a"], ["b"]] ≤ 2 :=
  ⟨⟨by decide, by decide⟩,
    chunk_text_word_bound [["a"], ["b"], ["c"]] 2 [["a"], ["b"]]
      (by decide) (by decide)⟩

theorem length_le_wordCount {sen : Sentence} {c : List Sentence}
    (h : sen ∈ c) : sen.length ≤ wordCount c :=
  List.single_le_sum (by intro x hx; exact Nat.zero_le x) _
    (List.mem_map_of_mem List.length h)

/-- Chunks that can only contain `sen` as a singleton are counted by the
occurrences of `sen` in their concatenation. -/
theorem countP_eq_count_flatten (sen : Sentence) :
    ∀ (chunks : List (List Sentence)),
      (∀ c ∈ chunks, sen ∈ c → c = [sen]) →
      chunks.countP (fun c => decide (sen ∈ c)) = chunks.flatten.count sen := by
  intro chunks
  induction chunks with
  | nil => intro h; rfl
  | cons c rest ih =>
    intro h
    have hr := ih (by intro d hd hsd; exact h d (List.mem_cons_of_mem c hd) hsd)
    by_cases hs : sen ∈ c
    · have hc : c = [sen] := h c (List.mem_cons_self c rest) hs
      subst hc
      simp [List.countP_cons, List.count_append, hr, List.count_singleton]
    · simp [List.countP_cons, hs, List.count_append, hr,
        List.count_eq_zero.mpr hs]

/-- C3: every sentence whose own word count exceeds `max_words` appears whole
in exactly one chunk of the output of `chunk_text` (one chunk per occurrence),
and any chunk containing it is exactly the singleton of that sentence. -/
theorem chunk_text_oversized_own_chunk (sentences : List Sentence)
    (max_words : Nat) (sen : Sentence) (hmem : sen ∈ sentences)
    (hover : max_words < sen.length) :
    (∀ c ∈ chunk_text sentences max_words, sen ∈ c → c = [sen]) ∧
    (chunk_text sentences max_words).countP (fun c => decide (sen ∈ c))
      = sentences.count sen := by
  have hsing : ∀ c ∈ chunk_text sentences max_words, sen ∈ c → c = [sen] := by
    intro c hc hsen
    rcases chunk_text_ok sentences max_words c hc with h | ⟨s, rfl, -⟩
    · exact absurd (Nat.lt_of_lt_of_le hover (Nat.le_trans (length_le_wordCount hsen) h))
        (Nat.lt_irrefl max_words)
    · simp only [List.mem_singleton] at hsen
      exact hsen ▸ rfl
  refine ⟨hsing, ?_⟩
  rw [countP_eq_count_flatten sen _ hsing, chunk_text_flatten_eq]

/-- Witness for C3 at a concrete input. -/
theorem chunk_text_oversized_own_chunk_witness :
    ((["a", "b"] : Sentence) ∈ [(["a", "b"] : Sentence)] ∧ 1 < (["a", "b"] : Sentence).length)
      ∧ ((∀ c ∈ chunk_text [["a", "b"]] 1, (["a", "b"] : Sentence) ∈ c → c = [["a", "b"]]) ∧
          (chunk_text [["a", "b"]] 1).countP (fun c => decide ((["a", "b"] : Sentence) ∈ c))
            = List.count (["a", "b"] : Sentence) [["a", "b"]]) :=
  ⟨⟨by decide, by decide⟩,
    chunk_text_oversized_own_chunk [["a", "b"]] 1 ["a", "b"] (by decide) (by decide)⟩

/-- C9: when the first sentence of the text is itself oversized, the loop
flushes the still-empty accumulator, so the first chunk of the output is the
empty chunk (rendered as the empty string by `" ".join([])`). -/
theorem chunk_text_leading_empty (s : Sentence) (rest : List Sentence)
    (max_words : Nat) (h : max_words < s.length) :
    (chunk_text (s :: rest) max_words).head? = some [] := by
  unfold chunk_text
  simp only [List.foldl_cons, chunkStep]
  rw [if_neg (by omega)]
  obtain ⟨t, ht⟩ := chunk_foldl_chunks_extend max_words rest
    ([] ++ [[]]) [s] s.length
  unfold finishChunks
  by_cases hcur :
      (rest.foldl (chunkStep max_words) ([] ++ [[]], [s], s.length)).2.1 = []
  · rw [if_pos hcur, ht]
    rfl
  · rw [if_neg hcur, ht]
    rfl

/-- Witness for C9 at a concrete input. -/
theorem chunk_text_leading_empty_witness :
    (1 < (["a", "b"] : Sentence).length)
      ∧ (chunk_text [["a", "b"]] 1).head? = some [] :=
  ⟨by decide, chunk_text_leading_empty ["a", "b"] [] 1 (by decide)⟩

/-! The summarization client `run_summary`.  The model call `agent.run` and
`json.loads` are external collaborators: an attempt's outcome is a value of
`AttemptResult`, and the JSON parser is a parameter `jsonParse`.  The brace
location, slicing, key-presence check and pydantic field validation are
embedded from the source. -/

/-- JSON values, as returned by `json.loads`. -/
inductive Json where
  | null
  | bool (b : Bool)
  | num (n : Int)
  | str (s : String)
  | arr (elems : List Json)
  | obj (fields : List (String × Json))

/-- The pydantic schema `SummaryOutput`. -/
structure SummaryOutput where
  heading : String
  main_point : String
  action_items : List String
deriving Repr, DecidableEq

/-- Index of the last occurrence of `c`, as Python `str.rfind`. -/
def rfindIdx (l : List Char) (c : Char) : Option Nat :=
  match l.reverse.findIdx? (fun x => x = c) with
  | some i => some (l.length - 1 - i)
  | none => none

/-- The brace-delimited slice `response_text[json_start:json_end]` of
`run_summary`; `none` models the raised `ValueError` when either brace is
absent. -/
def extract_json_str (response_text : String) : Option String :=
  let l := response_text.data
  match l.findIdx? (fun x => x = '{'), rfindIdx l '}' with
  | some json_start, some json_last =>
      some (String.mk ((l.drop json_start).take (json_last + 1 - json_start)))
  | _, _ => none

/-- Python's `key in json_data` on a parsed JSON value: key membership for
objects, element equality for arrays, substring for strings; `none` models
the `TypeError` raised on non-container values. -/
def keyIn (key : String) : Json → Option Bool
  | .obj fields => some (fields.any (fun kv => kv.1 == key))
  | .arr elems =>
      some (elems.any (fun e => match e with | .str t => t == key | _ => false))
  | .str s => some ((s.data.tails).any (fun t => key.data.isPrefixOf t))
  | _ => none

/-- The check `all(key in json_data for key in ['heading', 'main_point',
'action_items'])`. -/
def hasAllKeys (j : Json) : Option Bool := do
  let b1 ← keyIn "heading" j
  if !b1 then return false
  let b2 ← keyIn "main_point" j
  if !b2 then return false
  keyIn "action_items" j

/-- Pydantic validation of a `str` field: only a JSON string is accepted. -/
def asStr : Json → Option String
  | .str s => some s
  | _ => none

/-- Pydantic validation of the `List[str]` field, element by element. -/
def asStrAll : List Json → Option (List String)
  | [] => some []
  | e :: es =>
      match asStr e, asStrAll es with
      | some s, some rest => some (s :: rest)
      | _, _ => none

/-- Construction `SummaryOutput(**json_data)`: pydantic validation of the
declared field types; `none` models a raised `ValidationError` (or the
`TypeError` when `json_data` is not a mapping). -/
def mkSummaryOutput : Json → Option SummaryOutput
  | .obj fields => do
      let h ← fields.lookup "heading" >>= asStr
      let m ← fields.lookup "main_point" >>= asStr
      let items ←
        match fields.lookup "action_items" with
        | some (.arr elems) => asStrAll elems
        | _ => none
      some ⟨h, m, items⟩
  | _ => none

/-- Body of one attempt of `run_summary` on a model response: brace slicing,
JSON parsing, key-presence check, then pydantic construction.  `none` is the
fall-through to the next attempt (caught exception or failed key check). -/
def processResponse (jsonParse : String → Option Json)
    (response_text : String) : Option SummaryOutput := do
  let json_str ← extract_json_str response_text
  let json_data ← jsonParse json_str
  let ok ← hasAllKeys json_data
  if ok then mkSummaryOutput json_data else none

/-- Outcome of one `await agent.run(prompt)` call: the call raises, returns a
result without usable output, or returns a response text. -/
inductive AttemptResult where
  | raises
  | noOutput
  | output (response_text : String)

/-- What one loop iteration of `run_summary` yields for a given attempt
outcome. -/
def attemptSummary (jsonParse : String → Option Json) :
    AttemptResult → Option SummaryOutput
  | .raises => none
  | .noOutput => none
  | .output r => processResponse jsonParse r

def max_retries : Nat := 2

/-- The retry loop: first successful attempt wins, `none` after the list is
exhausted. -/
def runAttempts (jsonParse : String → Option Json) :
    List AttemptResult → Option SummaryOutput
  | [] => none
  | a :: rest =>
      match attemptSummary jsonParse a with
      | some r => some r
      | none => runAttempts jsonParse rest

/-- Source `run_summary`: at most `max_retries` attempts, returning
the first valid record or `None`. -/
def run_summary (jsonParse : String → Option Json)
    (attempts : List AttemptResult) : Option SummaryOutput :=
  runAttempts jsonParse (attempts.take max_retries)

theorem runAttempts_eq_none (jsonParse : String → Option Json) :
    ∀ l : List AttemptResult, (∀ a ∈ l, attemptSummary jsonParse a = none) →
      runAttempts jsonParse l = none := by
  intro l
  induction l with
  | nil => intro h; rfl
  | cons a rest ih =>
    intro h
    unfold runAttempts
    rw [h a (List.mem_cons_self a rest)]
    exact ih (fun b hb => h b (List.mem_cons_of_mem a hb))

theorem lookup_none_any_false (k : String) :
    ∀ fields : List (String × Json), fields.lookup k = none →
      fields.any (fun kv => kv.1 == k) = false := by
  intro fields
  induction fields with
  | nil => intro h; rfl
  | cons kv tl ih =>
    intro h
    obtain ⟨b, v⟩ := kv
    simp only [List.lookup] at h
    cases hkb : (k == b) with
    | true => rw [hkb] at h; cases h
    | false =>
      rw [hkb] at h
      have hne : b ≠ k := fun hbk => by
        rw [beq_eq_false_iff_ne] at hkb
        exact hkb hbk.symm
      simp [List.any_cons, hne, ih h]

/-- The `all(...)` key check on a parsed object is the conjunction of the three
key-membership tests. -/
theorem hasAllKeys_obj (fields : List (String × Json)) :
    hasAllKeys (.obj fields)
      = some ((fields.any (fun kv => kv.1 == "heading"))
          && ((fields.any (fun kv => kv.1 == "main_point"))
          && (fields.any (fun kv => kv.1 == "action_items")))) := by
  cases h1 : fields.any (fun kv => kv.1 == "heading") <;>
    cases h2 : fields.any (fun kv => kv.1 == "main_point") <;>
      simp [hasAllKeys, keyIn, h1, h2]

theorem hasAllKeys_obj_missing (fields : List (String × Json))
    (h : fields.lookup "heading" = none ∨ fields.lookup "main_point" = none ∨
         fields.lookup "action_items" = none) :
    hasAllKeys (.obj fields) = some false := by
  rw [hasAllKeys_obj]
  rcases h with h | h | h <;> simp [lookup_none_any_false _ _ h]

/-- An attempt whose model response is malformed in one of the three ways of
C4: no brace pair, unparsable brace slice, or a parsed object with a required
key missing. -/
def MalformedResponse (jsonParse : String → Option Json)
    (a : AttemptResult) : Prop :=
  ∃ s, a = .output s ∧
    (extract_json_str s = none ∨
     (∃ js, extract_json_str s = some js ∧ jsonParse js = none) ∨
     (∃ js fields, extract_json_str s = some js
        ∧ jsonParse js = some (.obj fields)
        ∧ (fields.lookup "heading" = none ∨ fields.lookup "main_point" = none ∨
           fields.lookup "action_items" = none)))

theorem attempt_malformed_none (jsonParse : String → Option Json)
    (a : AttemptResult) (h : MalformedResponse jsonParse a) :
    attemptSummary jsonParse a = none := by
  obtain ⟨s, rfl, hcase⟩ := h
  rcases hcase with h | ⟨js, hjs, hp⟩ | ⟨js, fields, hjs, hp, hmiss⟩
  · simp [attemptSummary, processResponse, h]
  · simp [attemptSummary, processResponse, hjs, hp]
  · simp [attemptSummary, processResponse, hjs, hp,
      hasAllKeys_obj_missing fields hmiss]

/-- C4: when on every attempt the model response either contains no brace
pair, or its brace slice fails JSON parsing, or parses to an object missing
one of the keys heading, main_point, action_items, then `run_summary` returns
`None` instead of raising. -/
theorem run_summary_malformed_null (jsonParse : String → Option Json)
    (attempts : List AttemptResult)
    (h : ∀ a ∈ attempts, MalformedResponse jsonParse a) :
    run_summary jsonParse attempts = none := by
  unfold run_summary
  exact runAttempts_eq_none jsonParse _
    (fun a ha => attempt_malformed_none jsonParse a (h a (List.take_subset _ _ ha)))

/-- Parser stub that fails on every input. -/
def parseNone : String → Option Json := fun _ => none

/-- Witness for C4 at a concrete input. -/
theorem run_summary_malformed_null_witness :
    (∀ a ∈ [AttemptResult.output "no json here", AttemptResult.output "also none"],
        MalformedResponse parseNone a)
      ∧ run_summary parseNone
          [AttemptResult.output "no json here", AttemptResult.output "also none"]
        = none := by
  have hyp : ∀ a ∈ [AttemptResult.output "no json here",
      AttemptResult.output "also none"], MalformedResponse parseNone a := by
    intro a ha
    rcases List.mem_cons.mp ha with rfl | ha
    · exact ⟨"no json here", rfl, Or.inl (by decide)⟩
    rcases List.mem_cons.mp ha with rfl | ha
    · exact ⟨"also none", rfl, Or.inl (by decide)⟩
    · cases ha
  exact ⟨hyp, run_summary_malformed_null parseNone _ hyp⟩

/-- An attempt whose response parses to a value passing the key-presence check
while pydantic construction fails on the field types. -/
def TypeInvalidResponse (jsonParse : String → Option Json)
    (a : AttemptResult) : Prop :=
  ∃ s js j, a = .output s ∧ extract_json_str s = some js
    ∧ jsonParse js = some j ∧ hasAllKeys j = some true
    ∧ mkSummaryOutput j = none

/-- C10: when on every attempt the response parses to a JSON object with all
three required keys but values not matching the declared types, pydantic
construction fails, the attempt is consumed as a retry, and `run_summary`
returns `None` after exhausting attempts. -/
theorem run_summary_bad_types_null (jsonParse : String → Option Json)
    (attempts : List AttemptResult)
    (h : ∀ a ∈ attempts, TypeInvalidResponse jsonParse a) :
    run_summary jsonParse attempts = none := by
  unfold run_summary
  refine runAttempts_eq_none jsonParse _ (fun a ha => ?_)
  obtain ⟨s, js, j, rfl, hjs, hp, hok, hmk⟩ := h a (List.take_subset _ _ ha)
  simp [attemptSummary, processResponse, hjs, hp, hok, hmk]

/-- Parser stub returning an object with all keys present but a null heading. -/
def parseBadTypes : String → Option Json := fun _ =>
  some (.obj [("heading", Json.null), ("main_point", .str "m"),
    ("action_items", .arr [.str "a"])])

/-- Witness for C10 at a concrete input. -/
theorem run_summary_bad_types_null_witness :
    (∀ a ∈ [AttemptResult.output "{}", AttemptResult.output "{}"],
        TypeInvalidResponse parseBadTypes a)
      ∧ run_summary parseBadTypes
          [AttemptResult.output "{}", AttemptResult.output "{}"] = none := by
  have hyp : ∀ a ∈ [AttemptResult.output "{}", AttemptResult.output "{}"],
      TypeInvalidResponse parseBadTypes a := by
    intro a ha
    have hone : TypeInvalidResponse parseBadTypes (AttemptResult.output "{}") :=
      ⟨"{}", "{}", _, rfl, by decide, rfl, rfl, rfl⟩
    rcases List.mem_cons.mp ha with rfl | ha
    · exact hone
    rcases List.mem_cons.mp ha with rfl | ha
    · exact hone
    · cases ha
  exact ⟨hyp, run_summary_bad_types_null parseBadTypes _ hyp⟩

/-- Parser stub returning a fully typed record whose heading and main point
are empty strings. -/
def parseEmptyHeading : String → Option Json := fun _ =>
  some (.obj [("heading", .str ""), ("main_point", .str ""),
    ("action_items", .arr [])])

/-- C5 counterexample: `run_summary` returns a record whose heading and
main_point are the empty string, so produced records need not have non-empty
heading or main_point. -/
theorem run_summary_empty_heading_cx :
    run_summary parseEmptyHeading [AttemptResult.output "{}"]
      = some { heading := "", main_point := "", action_items := [] } := rfl

theorem runAttempts_some_mem (jsonParse : String → Option Json) :
    ∀ (l : List AttemptResult) (r : SummaryOutput),
      runAttempts jsonParse l = some r →
      ∃ a ∈ l, attemptSummary jsonParse a = some r := by
  intro l
  induction l with
  | nil => intro r h; cases h
  | cons a rest ih =>
    intro r h
    unfold runAttempts at h
    cases ha : attemptSummary jsonParse a with
    | some r' =>
      rw [ha] at h
      exact ⟨a, List.mem_cons_self a rest, ha.trans h⟩
    | none =>
      rw [ha] at h
      obtain ⟨b, hb, hsum⟩ := ih r h
      exact ⟨b, List.mem_cons_of_mem a hb, hsum⟩

theorem asStrAll_eq_map :
    ∀ (elems : List Json) (l : List String), asStrAll elems = some l →
      elems = l.map Json.str := by
  intro elems
  induction elems with
  | nil =>
    intro l h
    simp only [asStrAll, Option.some_inj] at h
    subst h
    rfl
  | cons e es ih =>
    intro l h
    unfold asStrAll at h
    cases he : asStr e with
    | none => rw [he] at h; cases h
    | some s =>
      rw [he] at h
      cases hes : asStrAll es with
      | none => rw [hes] at h; cases h
      | some rest =>
        rw [hes] at h
        simp only [Option.some_inj] at h
        subst h
        have he' : e = Json.str s := by
          cases e <;> simp [asStr] at he <;> simp [he]
        rw [he', ih rest hes]
        rfl

theorem attempt_some_validated (jsonParse : String → Option Json)
    (a : AttemptResult) (r : SummaryOutput)
    (h : attemptSummary jsonParse a = some r) :
    ∃ s js fields, a = .output s ∧ extract_json_str s = some js
      ∧ jsonParse js = some (.obj fields)
      ∧ hasAllKeys (.obj fields) = some true
      ∧ fields.lookup "heading" = some (.str r.heading)
      ∧ fields.lookup "main_point" = some (.str r.main_point)
      ∧ fields.lookup "action_items"
          = some (.arr (r.action_items.map Json.str)) := by
  cases a with
  | raises => cases h
  | noOutput => cases h
  | output s =>
    refine ⟨s, ?_⟩
    cases hjs : extract_json_str s with
    | none => simp [attemptSummary, processResponse, hjs] at h
    | some js =>
      refine ⟨js, ?_⟩
      cases hj : jsonParse js with
      | none => simp [attemptSummary, processResponse, hjs, hj] at h
      | some j =>
        cases hok : hasAllKeys j with
        | none => simp [attemptSummary, processResponse, hjs, hj, hok] at h
        | some b =>
          cases b with
          | false => simp [attemptSummary, processResponse, hjs, hj, hok] at h
          | true =>
            have hmk : mkSummaryOutput j = some r := by
              simpa [attemptSummary, processResponse, hjs, hj, hok] using h
            cases j with
            | null => cases hmk
            | bool b' => cases hmk
            | num n => cases hmk
            | str s' => cases hmk
            | arr elems => cases hmk
            | obj fields =>
              refine ⟨fields, rfl, rfl, rfl, hok, ?_⟩
              cases hh : fields.lookup "heading" with
              | none => simp [mkSummaryOutput, hh] at hmk
              | some jh =>
                cases hm : fields.lookup "main_point" with
                | none => simp [mkSummaryOutput, hh, hm] at hmk
                | some jm =>
                  cases hai : fields.lookup "action_items" with
                  | none => simp [mkSummaryOutput, hh, hm, hai] at hmk
                  | some jai =>
                    cases jh with
                    | str hstr =>
                      cases jm with
                      | str mstr =>
                        cases jai with
                        | arr elems =>
                          cases hall : asStrAll elems with
                          | none =>
                            simp [mkSummaryOutput, hh, hm, hai, asStr, hall]
                              at hmk
                          | some items =>
                            have hr : r = ⟨hstr, mstr, items⟩ := by
                              have := hmk
                              simp [mkSummaryOutput, hh, hm, hai, asStr, hall]
                                at this
                              exact this.symm
                            subst hr
                            refine ⟨?_, ?_, ?_⟩
                            · simp [hh]
                            · simp [hm]
                            · simp [hai, asStrAll_eq_map elems items hall]
                        | null => simp [mkSummaryOutput, hh, hm, hai, asStr] at hmk
                        | bool b' => simp [mkSummaryOutput, hh, hm, hai, asStr] at hmk
                        | num n => simp [mkSummaryOutput, hh, hm, hai, asStr] at hmk
                        | str s' => simp [mkSummaryOutput, hh, hm, hai, asStr] at hmk
                        | obj f' => simp [mkSummaryOutput, hh, hm, hai, asStr] at hmk
                      | null => simp [mkSummaryOutput, hh, hm, asStr] at hmk
                      | bool b' => simp [mkSummaryOutput, hh, hm, asStr] at hmk
                      | num n => simp [mkSummaryOutput, hh, hm, asStr] at hmk
                      | arr e' => simp [mkSummaryOutput, hh, hm, asStr] at hmk
                      | obj f' => simp [mkSummaryOutput, hh, hm, asStr] at hmk
                    | null => simp [mkSummaryOutput, hh, asStr] at hmk
                    | bool b' => simp [mkSummaryOutput, hh, asStr] at hmk
                    | num n => simp [mkSummaryOutput, hh, asStr] at hmk
                    | arr e' => simp [mkSummaryOutput, hh, asStr] at hmk
                    | obj f' => simp [mkSummaryOutput, hh, asStr] at hmk

/-- C5 (amended): every record returned by `run_summary` was constructed from
one attempt's parsed response object in which all three fields are present,
non-null and of the declared types (heading and main_point JSON strings,
action_items an array of strings); the strings may be empty, since
non-emptiness is not validated. -/
theorem run_summary_record_validated (jsonParse : String → Option Json)
    (attempts : List AttemptResult) (r : SummaryOutput)
    (h : run_summary jsonParse attempts = some r) :
    ∃ a ∈ attempts.take max_retries, ∃ s js fields,
      a = .output s ∧ extract_json_str s = some js
      ∧ jsonParse js = some (.obj fields)
      ∧ hasAllKeys (.obj fields) = some true
      ∧ fields.lookup "heading" = some (.str r.heading)
      ∧ fields.lookup "main_point" = some (.str r.main_point)
      ∧ fields.lookup "action_items"
          = some (.arr (r.action_items.map Json.str)) := by
  obtain ⟨a, ha, hsum⟩ := runAttempts_some_mem jsonParse _ r h
  exact ⟨a, ha, attempt_some_validated jsonParse a r hsum⟩

/-- Parser stub returning a fully valid record. -/
def parseGood : String → Option Json := fun _ =>
  some (.obj [("heading", .str "h"), ("main_point", .str "m"),
    ("action_items", .arr [.str "a"])])

/-- Witness for the amended C5 at a concrete input. -/
theorem run_summary_record_validated_witness :
    run_summary parseGood [AttemptResult.output "{}"]
        = some { heading := "h", main_point := "m", action_items := ["a"] }
      ∧ ∃ a ∈ [AttemptResult.output "{}"].take max_retries, ∃ s js fields,
          a = .output s ∧ extract_json_str s = some js
          ∧ parseGood js = some (.obj fields)
          ∧ hasAllKeys (.obj fields) = some true
          ∧ fields.lookup "heading" = some (.str "h")
          ∧ fields.lookup "main_point" = some (.str "m")
          ∧ fields.lookup "action_items" = some (.arr (["a"].map Json.str)) :=
  ⟨rfl, run_summary_record_validated parseGood [AttemptResult.output "{}"]
    { heading := "h", main_point := "m", action_items := ["a"] } rfl⟩

/-! The chunk orchestrator `summarize_chunks`.  The per-chunk call
`await run_summary(chunk)` is external at this level: its outcome for the
`i`-th chunk is given by a parameter `runChunk`, which may raise or return an
optional record. -/

/-- Outcome of summarizing one chunk: the call raises, or returns `None` or a
record. -/
inductive ChunkOutcome where
  | raises
  | returns (r : Option SummaryOutput)

/-- Source `summarize_chunks`: iterate `enumerate(chunks)` in order,
appending each successful record and skipping a chunk whose call returns
`None` or raises. -/
def summarize_chunks {α : Type} (runChunk : Nat → α → ChunkOutcome)
    (chunks : List α) : List SummaryOutput :=
  (chunks.enum).foldl
    (fun all_summaries p =>
      match runChunk p.1 p.2 with
      | .returns (some s) => all_summaries ++ [s]
      | _ => all_summaries) []

/-- The successful outcomes, as a filter of the enumerated chunk list. -/
def successfulSummaries {α : Type} (runChunk : Nat → α → ChunkOutcome)
    (chunks : List α) : List SummaryOutput :=
  (chunks.enum).filterMap
    (fun p =>
      match runChunk p.1 p.2 with
      | .returns (some s) => some s
      | _ => none)

theorem summarize_foldl_filterMap {α : Type}
    (runChunk : Nat → α → ChunkOutcome) :
    ∀ (l : List (Nat × α)) (acc : List SummaryOutput),
      l.foldl
        (fun all_summaries p =>
          match runChunk p.1 p.2 with
          | .returns (some s) => all_summaries ++ [s]
          | _ => all_summaries) acc
      = acc ++ l.filterMap
          (fun p =>
            match runChunk p.1 p.2 with
            | .returns (some s) => some s
            | _ => none) := by
  intro l
  induction l with
  | nil => intro acc; simp
  | cons p rest ih =>
    intro acc
    simp only [List.foldl_cons, List.filterMap_cons]
    cases hp : runChunk p.1 p.2 with
    | raises => simp [hp, ih acc]
    | returns r =>
      cases r with
      | none => simp [hp, ih acc]
      | some s => simp [hp, ih (acc ++ [s])]

/-- C6: `summarize_chunks` processes the chunks in order and returns exactly
the subsequence of successful summary records, in original chunk order; a
chunk whose summarization returns `None` or raises is skipped, and the run
always completes with a (possibly empty) list. -/
theorem summarize_chunks_successes {α : Type}
    (runChunk : Nat → α → ChunkOutcome) (chunks : List α) :
    summarize_chunks runChunk chunks = successfulSummaries runChunk chunks := by
  unfold summarize_chunks successfulSummaries
  rw [summarize_foldl_filterMap]
  rfl

/-! The merger `format_final_output`. -/

/-- Python character class `\w` over the model alphabet: letters, digits and
the underscore. -/
def isWordChar (c : Char) : Bool := c.isAlphanum || c = '_'

/-- Python character class `\s`: the whitespace characters. -/
def isSpaceChar (c : Char) : Bool :=
  c = ' ' || c = '\t' || c = '\n' || c = '\r' || c = '\x0b' || c = '\x0c'

/-- Python `str.strip` over a char list. -/
def stripChars (l : List Char) : List Char :=
  ((l.dropWhile isSpaceChar).reverse.dropWhile isSpaceChar).reverse

/-- The dedup key of `format_final_output`:
`re.sub(r'[^\w\s]', '', item.lower()).strip()`. -/
def normalizeItem (item : String) : String :=
  String.mk (stripChars
    ((item.data.map Char.toLower).filter (fun c => isWordChar c || isSpaceChar c)))

/-- One iteration of the consolidation loop: state is
`(seen_actions, action_counter, action_mapping)`. -/
def consolidateStep (st : List String × Nat × List (Nat × String))
    (item : String) : List String × Nat × List (Nat × String) :=
  let (seen_actions, action_counter, action_mapping) := st
  let normalized := normalizeItem item
  if normalized ∈ seen_actions then st
  else (normalized :: seen_actions, action_counter + 1,
    action_mapping ++ [(action_counter, item)])

/-- The consolidated `action_mapping` built by `format_final_output` from all
action items in input order (the `seen_actions` set is modelled as a list). -/
def consolidate (items : List String) : List (Nat × String) :=
  (items.foldl consolidateStep ([], 1, [])).2.2

/-- Insertion of one keyed entry into a key-sorted list. -/
def insertPair (p : Nat × String) : List (Nat × String) → List (Nat × String)
  | [] => [p]
  | q :: qs => if p.1 ≤ q.1 then p :: q :: qs else q :: insertPair p qs

/-- Python `sorted(action_mapping.items())`: sort the entries by key. -/
def sortPairs (l : List (Nat × String)) : List (Nat × String) :=
  l.foldr insertPair []

/-- One detailed block of the report, for `CHUNK i`. -/
def detailedBlock (i : Nat) (summary : SummaryOutput) : String :=
  "CHUNK " ++ toString i ++ ": " ++ summary.heading ++ "\n"
    ++ "Main Point: " ++ summary.main_point ++ "\n"
    ++ "Action Items:\n"
    ++ String.join ((summary.action_items.enumFrom 1).map
        (fun p => "  " ++ toString p.1 ++ ". " ++ p.2 ++ "\n"))
    ++ "\n"

/-- Source `format_final_output`. -/
def format_final_output (summaries : List SummaryOutput) : String :=
  if summaries = [] then "No valid summaries were generated."
  else
    let detailed_output := "=== DETAILED CHUNK SUMMARIES ===\n\n"
      ++ String.join ((summaries.enumFrom 1).map
          (fun p => detailedBlock p.1 p.2))
    let action_mapping :=
      consolidate (summaries.flatMap (fun summary => summary.action_items))
    let consolidated_output := "=== CONSOLIDATED ACTION ITEMS ===\n"
      ++ String.join ((sortPairs action_mapping).map
          (fun p => toString p.1 ++ ". " ++ p.2 ++ "\n"))
    detailed_output ++ "\n" ++ consolidated_output

/-- C7: on the empty summary list, `format_final_output` returns the fixed
"no valid summaries" sentinel string and does not raise. -/
theorem format_final_output_empty :
    format_final_output [] = "No valid summaries were generated." := rfl

/-- Modelled from the spec: keep the first-encountered item of each
equivalence class of `normalizeItem`, in encounter order, given the classes
already seen. -/
def dedupFirstAux (seen : List String) : List String → List String
  | [] => []
  | x :: xs =>
      if normalizeItem x ∈ seen then dedupFirstAux seen xs
      else x :: dedupFirstAux (normalizeItem x :: seen) xs

/-- Modelled from the spec: first-seen representatives of all normalization
classes, in encounter order. -/
def dedupFirst (items : List String) : List String := dedupFirstAux [] items

/-- The consolidation loop computes the first-seen representatives, keyed by
consecutive counters. -/
theorem consolidate_foldl (items : List String) :
    ∀ (seen : List String) (counter : Nat) (mapping : List (Nat × String)),
      (items.foldl consolidateStep (seen, counter, mapping)).2.2
        = mapping ++ List.enumFrom counter (dedupFirstAux seen items) := by
  induction items with
  | nil => intro seen counter mapping; simp [dedupFirstAux]
  | cons x xs ih =>
    intro seen counter mapping
    simp only [List.foldl_cons, consolidateStep, dedupFirstAux]
    by_cases hx : normalizeItem x ∈ seen
    · rw [if_pos hx, if_pos hx]
      exact ih seen counter mapping
    · rw [if_neg hx, if_neg hx]
      rw [ih (normalizeItem x :: seen) (counter + 1) (mapping ++ [(counter, x)])]
      simp [List.enumFrom_cons]

theorem consolidate_eq_enumFrom (items : List String) :
    consolidate items = List.enumFrom 1 (dedupFirst items) := by
  unfold consolidate dedupFirst
  rw [consolidate_foldl items [] 1 []]
  rfl

theorem insertPair_of_le (p : Nat × String) (l : List (Nat × String))
    (h : ∀ q ∈ l, p.1 ≤ q.1) : insertPair p l = p :: l := by
  cases l with
  | nil => rfl
  | cons q qs =>
    unfold insertPair
    rw [if_pos (h q (List.mem_cons_self q qs))]

theorem sortPairs_of_sorted :
    ∀ l : List (Nat × String),
      List.Pairwise (fun a b => a.1 ≤ b.1) l → sortPairs l = l := by
  intro l
  induction l with
  | nil => intro h; rfl
  | cons p rest ih =>
    intro h
    rcases List.pairwise_cons.mp h with ⟨hp, hrest⟩
    unfold sortPairs at ih ⊢
    rw [List.foldr_cons, ih hrest, insertPair_of_le p rest hp]

theorem enumFrom_keys_sorted (l : List String) :
    ∀ n : Nat, List.Pairwise (fun a b => a.1 ≤ b.1) (List.enumFrom n l) := by
  induction l with
  | nil => intro n; exact List.Pairwise.nil
  | cons x xs ih =>
    intro n
    rw [List.enumFrom_cons]
    exact List.pairwise_cons.mpr
      ⟨fun q hq => Nat.le_of_succ_le (List.le_fst_of_mem_enumFrom hq), ih (n + 1)⟩

/-- Entries of the spec-side dedup carry classes not yet seen. -/
theorem dedupFirstAux_not_seen :
    ∀ (items seen : List String) (x : String), x ∈ dedupFirstAux seen items →
      normalizeItem x ∉ seen := by
  intro items
  induction items with
  | nil => intro seen x hx; cases hx
  | cons y ys ih =>
    intro seen x hx
    unfold dedupFirstAux at hx
    by_cases hy : normalizeItem y ∈ seen
    · rw [if_pos hy] at hx
      exact ih seen x hx
    · rw [if_neg hy] at hx
      rcases List.mem_cons.mp hx with rfl | hx
      · exact hy
      · intro hmem
        exact ih (normalizeItem y :: seen) x hx (List.mem_cons_of_mem _ hmem)

/-- The spec-side dedup keeps exactly one representative per class. -/
theorem dedupFirstAux_pairwise :
    ∀ (items seen : List String),
      List.Pairwise (fun a b => normalizeItem a ≠ normalizeItem b)
        (dedupFirstAux seen items) := by
  intro items
  induction items with
  | nil => intro seen; exact List.Pairwise.nil
  | cons y ys ih =>
    intro seen
    unfold dedupFirstAux
    by_cases hy : normalizeItem y ∈ seen
    · rw [if_pos hy]; exact ih seen
    · rw [if_neg hy]
      refine List.pairwise_cons.mpr ⟨?_, ih (normalizeItem y :: seen)⟩
      intro b hb heq
      exact dedupFirstAux_not_seen ys (normalizeItem y :: seen) b hb
        (heq ▸ List.mem_cons_self _ _)

/-- Every item's class has a representative in the spec-side dedup. -/
theorem dedupFirstAux_covers :
    ∀ (items seen : List String) (x : String), x ∈ items →
      normalizeItem x ∈ seen
        ∨ ∃ y ∈ dedupFirstAux seen items, normalizeItem y = normalizeItem x := by
  intro items
  induction items with
  | nil => intro seen x hx; cases hx
  | cons y ys ih =>
    intro seen x hx
    unfold dedupFirstAux
    by_cases hy : normalizeItem y ∈ seen
    · rw [if_pos hy]
      rcases List.mem_cons.mp hx with rfl | hx
      · exact Or.inl hy
      · exact ih seen x hx
    · rw [if_neg hy]
      rcases List.mem_cons.mp hx with rfl | hx
      · exact Or.inr ⟨x, List.mem_cons_self _ _, rfl⟩
      · rcases ih (normalizeItem y :: seen) x hx with hseen | ⟨z, hz, hzx⟩
        · rcases List.mem_cons.mp hseen with heq | hseen
          · exact Or.inr ⟨y, List.mem_cons_self _ _, heq.symm⟩
          · exact Or.inl hseen
        · exact Or.inr ⟨z, List.mem_cons_of_mem _ hz, hzx⟩

theorem enumFrom_pairwise_snd {R : String → String → Prop} :
    ∀ (l : List String) (n : Nat), List.Pairwise R l →
      List.Pairwise (fun a b => R a.2 b.2) (List.enumFrom n l) := by
  intro l
  induction l with
  | nil => intro n h; exact List.Pairwise.nil
  | cons x xs ih =>
    intro n h
    rcases List.pairwise_cons.mp h with ⟨hx, hxs⟩
    rw [List.enumFrom_cons]
    refine List.pairwise_cons.mpr ⟨?_, ih (n + 1) hxs⟩
    intro e he
    have hsnd : e.2 ∈ xs :=
      List.enumFrom_map_snd (n + 1) xs ▸ List.mem_map_of_mem Prod.snd he
    exact hx e.2 hsnd

/-- C8: for every non-empty summary list, the consolidated entries that
`format_final_output` emits are exactly the first-seen action items of each
normalization class, carrying the original first-encountered text, keyed by
ascending integers assigned in first-seen encounter order; every item's class
is represented, and no two entries share a class. -/
theorem consolidated_entries_dedup (summaries : List SummaryOutput)
    (h : summaries ≠ []) :
    sortPairs (consolidate (summaries.flatMap (fun s => s.action_items)))
        = List.enumFrom 1
            (dedupFirst (summaries.flatMap (fun s => s.action_items)))
      ∧ (∀ x ∈ summaries.flatMap (fun s => s.action_items),
          ∃ e ∈ sortPairs
              (consolidate (summaries.flatMap (fun s => s.action_items))),
            normalizeItem e.2 = normalizeItem x)
      ∧ List.Pairwise (fun a b => normalizeItem a.2 ≠ normalizeItem b.2)
          (sortPairs
            (consolidate (summaries.flatMap (fun s => s.action_items)))) := by
  have hs : sortPairs (consolidate (summaries.flatMap (fun s => s.action_items)))
      = List.enumFrom 1
          (dedupFirst (summaries.flatMap (fun s => s.action_items))) := by
    rw [consolidate_eq_enumFrom]
    exact sortPairs_of_sorted _ (enumFrom_keys_sorted _ 1)
  refine ⟨hs, ?_, ?_⟩
  · intro x hx
    rcases dedupFirstAux_covers (summaries.flatMap (fun s => s.action_items))
        [] x hx with hseen | ⟨y, hy, hyx⟩
    · cases hseen
    · have hy' : y ∈ List.map Prod.snd (List.enumFrom 1
          (dedupFirst (summaries.flatMap (fun s => s.action_items)))) :=
        (List.enumFrom_map_snd 1 _).symm ▸ hy
      obtain ⟨e, he, hesnd⟩ := List.mem_map.mp hy'
      exact ⟨e, hs ▸ he, by rw [hesnd, hyx]⟩
  · rw [hs]
    exact enumFrom_pairwise_snd _ 1 (dedupFirstAux_pairwise _ [])

/-- The summary of the spec's worked example: two action items differing only
in case and punctuation. -/
def exampleSummary : SummaryOutput :=
  { heading := "h", main_point := "m",
    action_items := ["Use clear headers.", "use clear headers"] }

/-- Witness for C8 at the spec's worked example. -/
theorem consolidated_entries_dedup_witness :
    ([exampleSummary] ≠ [])
      ∧ (sortPairs (consolidate
            ([exampleSummary].flatMap (fun s => s.action_items)))
          = List.enumFrom 1 (dedupFirst
              ([exampleSummary].flatMap (fun s => s.action_items)))
        ∧ (∀ x ∈ [exampleSummary].flatMap (fun s => s.action_items),
            ∃ e ∈ sortPairs (consolidate
                ([exampleSummary].flatMap (fun s => s.action_items))),
              normalizeItem e.2 = normalizeItem x)
        ∧ List.Pairwise (fun a b => normalizeItem a.2 ≠ normalizeItem b.2)
            (sortPairs (consolidate
              ([exampleSummary].flatMap (fun s => s.action_items))))) :=
  ⟨by decide, consolidated_entries_dedup [exampleSummary] (by decide)⟩
